import Mathlib

/-!
Verification of the obsidian-server vault client and tool dispatcher.

Shallow embedding of `src/clients/vault-client.ts` (`VaultClient`) and
`src/index.ts` (`ObsidianServer.handleToolCall` / `validateArgs`).

Modelling conventions:
* JavaScript strings are `List Char` (`Str`).  `String.prototype.includes`,
  `indexOf`, `slice`, `toLowerCase`, `endsWith`, `startsWith`, `trim` are
  embedded as executable functions below; `toLowerCase` is modelled by
  `Char.toLower` (ASCII), which is length preserving like the inputs at issue.
* The file system is a consistent snapshot: a single lookup yields the file
  content together with the `birthtime`/`mtime` stat values, so `fs.readFile`
  followed by `fs.stat` on the same path see the same entry.
* `js-yaml`'s `yaml.load` is an external library and is passed in as a
  parameter `yaml : Str → YamlResult`; `.error` models a thrown parse error.
* Directory trees are the nested inductive `VEntry`; the recursive walker of
  `searchNotes` takes an explicit fuel argument (a bound on the number of
  recursion steps) because Lean 4.14 cannot compile structural recursion over
  the nested tree.  All theorems quantify over the fuel; witnesses instantiate
  it with a bound large enough for the concrete vault.
* Thrown exceptions are `Except` errors: `IOErr` carries the Node error
  `code`/`message`, `SearchErr` adds the `TypeError` thrown when
  `note.metadata.title` is `undefined` and `includePath` is set.
-/

abbrev Str := List Char

/-- `s.toLowerCase()` (ASCII case folding, length preserving). -/
def toLowerStr (s : Str) : Str := s.map Char.toLower

/-- `s.startsWith(t)`: `t` is an initial segment of `s`. -/
def strStartsWith (s t : Str) : Bool := decide (s.take t.length = t)

/-- `s.endsWith(t)`: `t` is a final segment of `s`. -/
def strEndsWith (s t : Str) : Bool :=
  decide (t.length ≤ s.length) && decide (s.drop (s.length - t.length) = t)

/-- `hay.indexOf(needle)`: index of the first occurrence, `none` when absent. -/
def firstIdx (needle : Str) : Str → Option Nat
  | [] => if needle.isEmpty then some 0 else none
  | c :: rest =>
    if strStartsWith (c :: rest) needle then some 0
    else (firstIdx needle rest).map (· + 1)

/-- `hay.includes(needle)`: substring containment test. -/
def strIncludes (hay needle : Str) : Bool := (firstIdx needle hay).isSome

/-- `s.slice(a, b)` for already-clamped `0 ≤ a`, `b ≤ s.length`. -/
def strSlice (s : Str) (a b : Nat) : Str := (s.drop a).take (b - a)

/-- `s.trim()`: strip whitespace from both ends. -/
def trimStr (s : Str) : Str :=
  ((s.dropWhile Char.isWhitespace).reverse.dropWhile Char.isWhitespace).reverse

/-- `s.split('/')`. -/
def splitSlash (s : Str) : List Str :=
  s.foldr
    (fun c acc =>
      if c = '/' then [] :: acc
      else
        match acc with
        | h :: t => (c :: h) :: t
        | [] => [[c]])
    [[]]

/-- `s.split('/').pop() || ''`: the component after the last slash. -/
def lastComponent (s : Str) : Str := (splitSlash s).getLastD []

def mdExt : Str := ".md".data

def slashStr : Str := "/".data

/-- `s.replace(/\.md$/, '')`: strip one trailing `.md`. -/
def stripMd (s : Str) : Str :=
  if strEndsWith s mdExt then s.take (s.length - 3) else s

/-! ## Data model (`src/types/note.ts`) -/

/-- `NoteMetadata`; optional fields are `Option`s because a successfully parsed
front-matter block may lack any of them (the `as NoteMetadata` cast in the
source is unchecked). -/
structure NoteMetadata where
  title : Option Str := none
  tags : Option (List Str) := none
  created : Option Str := none
  modified : Option Str := none
deriving DecidableEq

structure Note where
  path : Str
  name : Str
  content : Str
  metadata : NoteMetadata
  linksTo : List Str
  linksFrom : List Str
deriving DecidableEq

inductive MatchType where
  | content
  | tag
  | title
deriving DecidableEq

structure SearchResult where
  note : Note
  excerpt : Option Str := none
  matchType : MatchType
  score : Nat
deriving DecidableEq

structure SearchOptions where
  includeTags : Option Bool := none
  includePath : Option Bool := none
  excludeFolders : Option (List Str) := none
  limit : Option Int := none
deriving DecidableEq

/-! ## File-system model -/

/-- A Node.js I/O error with its `code` (e.g. `ENOENT`) and `message`. -/
structure IOErr where
  code : Str
  message : Str
deriving DecidableEq

def enoent : Str := "ENOENT".data

def eisdir : Str := "EISDIR".data

/-- A consistent file-system snapshot: one lookup returns the content and the
`birthtime`/`mtime` ISO strings, or fails with an `IOErr`. -/
def FS := Str → Except IOErr (Str × Str × Str)

/-- One entry of a directory listing: a markdown (or other) file with content
and timestamps, or a subdirectory. -/
inductive VEntry where
  | file (name content ctime mtime : Str)
  | dir (name : Str) (entries : List VEntry)

def entryName : VEntry → Str
  | .file n _ _ _ => n
  | .dir n _ => n

/-- Resolve a component path inside a directory listing. -/
def findEntry : List Str → List VEntry → Option VEntry
  | [], _ => none
  | [c], entries => entries.find? (fun e => entryName e == c)
  | c :: c2 :: cs, entries =>
    match entries.find? (fun e => entryName e == c) with
    | some (.dir _ sub) => findEntry (c2 :: cs) sub
    | _ => none

/-- The file system induced by a vault rooted at `vaultPath`: paths of the form
`vaultPath ++ "/" ++ components` resolve inside the entry tree; a directory hit
is `EISDIR`, everything else `ENOENT`. -/
def fsOfVault (vaultPath : Str) (entries : List VEntry) : FS := fun p =>
  if strStartsWith p (vaultPath ++ slashStr) then
    match findEntry (splitSlash (p.drop (vaultPath.length + 1))) entries with
    | some (.file _ content ct mt) => .ok (content, ct, mt)
    | some (.dir _ _) => .error ⟨eisdir, eisdir⟩
    | none => .error ⟨enoent, enoent⟩
  else .error ⟨enoent, enoent⟩

/-- Result of `yaml.load` on a front-matter block: a parsed metadata object or
a thrown parse error. -/
inductive YamlResult where
  | ok (meta : NoteMetadata)
  | error
deriving DecidableEq

/-! ## `VaultClient` (`src/clients/vault-client.ts`) -/

def fmOpen : Str := "---\n".data

def fmClose : Str := "\n---\n".data

/-- The regex `/^---\n([\s\S]*?)\n---\n([\s\S]*)$/`: with a `---` first line,
split at the first later `\n---\n` (the lazy group) into block body and
remainder. -/
def frontmatterMatch (content : Str) : Option (Str × Str) :=
  if strStartsWith content fmOpen then
    match firstIdx fmClose (content.drop 4) with
    | some i => some ((content.drop 4).take i, (content.drop 4).drop (i + 5))
    | none => none
  else none

/-- `VaultClient.readMarkdownFile` minus the `fs.readFile` (the caller passes
the file content): parse the front matter; on success return the trimmed
remainder with the parsed metadata, otherwise fall back to the full original
text and a title defaulted from the filename stem. -/
def readMarkdownFile (yaml : Str → YamlResult) (path content : Str) :
    Str × NoteMetadata :=
  match frontmatterMatch content with
  | some (fm, rest) =>
    match yaml fm with
    | .ok meta => (trimStr rest, meta)
    | .error =>
      (content, { title := some (stripMd (lastComponent path)) })
  | none =>
    (content, { title := some (stripMd (lastComponent path)) })

/-- Scan for the lazy closer of `/\[\[(.*?)\]\]/`: the capture up to the first
`]]`, failing on a newline (`.` does not match `\n`) or end of input. -/
def findCloser : Str → Option (Str × Str)
  | ']' :: ']' :: after => some ([], after)
  | '\n' :: _ => none
  | c :: rest => (findCloser rest).map (fun p => (c :: p.1, p.2))
  | [] => none

/-- All captures of `wikiLinkRegex.exec` run to exhaustion: leftmost matches of
`/\[\[(.*?)\]\]/g`, continuing after each match end.  Fuel bounds the number of
scan steps; `wikiScan` supplies `content.length`, which always suffices. -/
def wikiScanAux : Nat → Str → List Str
  | 0, _ => []
  | _ + 1, [] => []
  | fuel + 1, '[' :: '[' :: rest =>
    match findCloser rest with
    | some (cap, after) => cap :: wikiScanAux fuel after
    | none => wikiScanAux fuel ('[' :: rest)
  | fuel + 1, _ :: rest => wikiScanAux fuel rest

def wikiScan (content : Str) : List Str := wikiScanAux content.length content

/-- One attempt of `/\[([^\]]+)\]\(([^)]+\.md)\)/` at a position just after a
`[`: a non-empty `]`-free label, `](`, then the maximal `)`-free run, which
must end in `.md` and be followed by `)`.  Returns the second capture and the
rest of the input after the match. -/
def tryMd (rest : Str) : Option (Str × Str) :=
  let lab := rest.takeWhile (fun c => c ≠ ']')
  if lab.isEmpty then none
  else
    match rest.dropWhile (fun c => c ≠ ']') with
    | ']' :: '(' :: rest2 =>
      let seg := rest2.takeWhile (fun c => c ≠ ')')
      if strEndsWith seg mdExt && decide (3 < seg.length) then
        match rest2.dropWhile (fun c => c ≠ ')') with
        | ')' :: after => some (seg, after)
        | _ => none
      else none
    | _ => none

/-- All second captures of `mdLinkRegex.exec` run to exhaustion (leftmost
matches, continuing after each match end), fuel-bounded as in `wikiScanAux`. -/
def mdScanAux : Nat → Str → List Str
  | 0, _ => []
  | _ + 1, [] => []
  | fuel + 1, '[' :: rest =>
    match tryMd rest with
    | some (seg, after) => seg :: mdScanAux fuel after
    | none => mdScanAux fuel rest
  | fuel + 1, _ :: rest => mdScanAux fuel rest

def mdScan (content : Str) : List Str := mdScanAux content.length content

/-- `Set.prototype.add`: append unless already present (first insertion kept,
insertion order preserved). -/
def addUnique (acc : List Str) (x : Str) : List Str :=
  if x ∈ acc then acc else acc ++ [x]

/-- `VaultClient.parseInternalLinks`: wiki-link captures (part before an
optional `|`) then markdown-link captures (trailing `.md` stripped), collected
through an insertion-ordered set. -/
def parseInternalLinks (content : Str) : List Str :=
  (((wikiScan content).map (fun cap => cap.takeWhile (fun c => c ≠ '|'))) ++
      ((mdScan content).map stripMd)).foldl addUnique []

/-- `path.relative(vaultPath, p)` for the paths this client builds: strip the
`vaultPath ++ "/"` prefix. -/
def relativePath (vaultPath p : Str) : Str :=
  if strStartsWith p (vaultPath ++ slashStr) then p.drop (vaultPath.length + 1)
  else p

/-- `VaultClient.getNoteByPath`: resolve `vaultPath/notePath.md`, read and
parse it, and assemble the `Note`; an `ENOENT` failure becomes `none`, any
other I/O error propagates. -/
def getNoteByPath (yaml : Str → YamlResult) (fs : FS)
    (vaultPath notePath : Str) : Except IOErr (Option Note) :=
  let fullPath := vaultPath ++ slashStr ++ notePath ++ mdExt
  match fs fullPath with
  | .error e => if e.code = enoent then .ok none else .error e
  | .ok (raw, ctime, mtime) =>
    let parsed := readMarkdownFile yaml fullPath raw
    let links := parseInternalLinks parsed.1
    .ok (some
      { path := relativePath vaultPath fullPath
        name := lastComponent notePath
        content := parsed.1
        metadata :=
          { parsed.2 with created := some ctime, modified := some mtime }
        linksTo := links
        linksFrom := [] })

/-- `options.excludeFolders?.some(folder => path.includes(folder))`. -/
def excludedPath (excl : List Str) (path : Str) : Bool :=
  excl.any (fun f => strIncludes path f)

/-- The `walkFiles` generator of `searchNotes`, fuel-bounded (see module
comment): for each directory entry, skip it entirely when its accumulated path
contains an excluded-folder substring; recurse into subdirectories; yield file
paths ending in `.md`. -/
def walkAux (excl : List Str) : Nat → Str → List VEntry → List Str
  | 0, _, _ => []
  | _ + 1, _, [] => []
  | fuel + 1, dir, e :: rest =>
    (match e with
      | .file name _ _ _ =>
        let path := dir ++ slashStr ++ name
        if excludedPath excl path then []
        else if strEndsWith name mdExt then [path] else []
      | .dir name sub =>
        let path := dir ++ slashStr ++ name
        if excludedPath excl path then []
        else walkAux excl fuel path sub) ++
    walkAux excl fuel dir rest

def walkFiles (excl : List Str) (fuel : Nat) (dir : Str)
    (entries : List VEntry) : List Str :=
  walkAux excl fuel dir entries

/-- `results.length >= (options.limit || Infinity)`: a limit of `0` (or none)
is falsy, so the bound is `Infinity` and the condition is never true. -/
def breakCond (limit : Option Int) (len : Nat) : Bool :=
  match limit with
  | none => false
  | some l => if l = 0 then false else decide (l ≤ (len : Int))

/-- The error surfaced by `searchNotes`: a propagated I/O error, or the
`TypeError` thrown by `note.metadata.title.toLowerCase()` when the metadata has
no title. -/
inductive SearchErr where
  | io (e : IOErr)
  | typeError
deriving DecidableEq

/-- The first `results.push` block: `note.content.toLowerCase().includes(...)`
(equivalently `indexOf` succeeding), score 1, computed excerpt. -/
def contentResult (query : Str) (note : Note) : List SearchResult :=
  match firstIdx (toLowerStr query) (toLowerStr note.content) with
  | some index =>
    [{ note
       excerpt := some ("...".data ++
         strSlice note.content (index - 40)
           (min note.content.length (index + query.length + 40)) ++ "...".data)
       matchType := .content
       score := 1 }]
  | none => []

/-- The second `results.push` block: tag match (score 2, no excerpt), gated on
`options.includeTags` and `note.metadata.tags?.some(...)`. -/
def tagResult (query : Str) (opts : SearchOptions) (note : Note) :
    List SearchResult :=
  if opts.includeTags.getD false &&
      (match note.metadata.tags with
        | some ts => ts.any (fun t => strIncludes (toLowerStr t) (toLowerStr query))
        | none => false) then
    [{ note, matchType := .tag, score := 2 }]
  else []

/-- The third `results.push` block payload: title/path match, score 3. -/
def titleResult (note : Note) : SearchResult :=
  { note, matchType := .title, score := 3 }

/-- The per-document body of the `searchNotes` loop: a content result, then a
tag result, then a path/title result, each independently.  The title test
short-circuits on the path test, so the missing-title `TypeError` fires only
when `includePath` is set and the path does not match. -/
def evalNote (query : Str) (opts : SearchOptions) (note : Note) :
    Except Unit (List SearchResult) :=
  if opts.includePath.getD false then
    if strIncludes (toLowerStr note.path) (toLowerStr query) then
      .ok (contentResult query note ++ tagResult query opts note ++ [titleResult note])
    else
      match note.metadata.title with
      | none => .error ()
      | some t =>
        if strIncludes (toLowerStr t) (toLowerStr query) then
          .ok (contentResult query note ++ tagResult query opts note ++ [titleResult note])
        else .ok (contentResult query note ++ tagResult query opts note)
  else .ok (contentResult query note ++ tagResult query opts note)

/-- The `for await` loop of `searchNotes` over the walked file paths, with the
`seen` relative-path set and the accumulated results. -/
def searchLoop (yaml : Str → YamlResult) (fs : FS) (vaultPath query : Str)
    (opts : SearchOptions) :
    List Str → List Str → List SearchResult →
      Except SearchErr (List SearchResult)
  | [], _, results => .ok results
  | path :: rest, seen, results =>
    if breakCond opts.limit results.length then .ok results
    else
      if relativePath vaultPath path ∈ seen then
        searchLoop yaml fs vaultPath query opts rest seen results
      else
        match getNoteByPath yaml fs vaultPath
            (stripMd (relativePath vaultPath path)) with
        | .error e => .error (.io e)
        | .ok none => searchLoop yaml fs vaultPath query opts rest seen results
        | .ok (some note) =>
          match evalNote query opts note with
          | .error _ => .error .typeError
          | .ok add =>
            searchLoop yaml fs vaultPath query opts rest
              (relativePath vaultPath path :: seen) (results ++ add)

/-- Stable insertion into a score-descending list: `x` (the earlier result)
goes before the first element whose score does not exceed it, so equal scores
keep their evaluation order.  This is the unique stable sort computed by
`results.sort((a, b) => b.score - a.score)`. -/
def insertScore (x : SearchResult) : List SearchResult → List SearchResult
  | [] => [x]
  | y :: ys => if y.score ≤ x.score then x :: y :: ys else y :: insertScore x ys

def sortScoreDesc (l : List SearchResult) : List SearchResult :=
  l.foldr insertScore []

/-- `VaultClient.searchNotes` before the final sort. -/
def searchNotesRaw (yaml : Str → YamlResult) (fuel : Nat)
    (vaultPath : Str) (vault : List VEntry) (query : Str)
    (opts : SearchOptions) : Except SearchErr (List SearchResult) :=
  searchLoop yaml (fsOfVault vaultPath vault) vaultPath query opts
    (walkFiles (opts.excludeFolders.getD []) fuel vaultPath vault) [] []

/-- `VaultClient.searchNotes`. -/
def searchNotes (yaml : Str → YamlResult) (fuel : Nat) (vaultPath : Str)
    (vault : List VEntry) (query : Str) (opts : SearchOptions) :
    Except SearchErr (List SearchResult) :=
  (searchNotesRaw yaml fuel vaultPath vault query opts).map sortScoreDesc

/-- `tagCounts.set(tag, (tagCounts.get(tag) || 0) + 1)` on an insertion-ordered
map. -/
def bumpTag (counts : List (Str × Nat)) (tag : Str) : List (Str × Nat) :=
  if counts.any (fun p => p.1 == tag) then
    counts.map (fun p => if p.1 == tag then (p.1, p.2 + 1) else p)
  else counts ++ [(tag, 1)]

/-- Stable insertion into a count-descending list (the stable
`sort((a, b) => b.count - a.count)`). -/
def insertCount (x : Str × Nat) : List (Str × Nat) → List (Str × Nat)
  | [] => [x]
  | y :: ys => if y.2 ≤ x.2 then x :: y :: ys else y :: insertCount x ys

def sortCountDesc (l : List (Str × Nat)) : List (Str × Nat) :=
  l.foldr insertCount []

/-- The `for await` loop of `getAllTags` over the names returned by
`fs.readdir(this.vaultPath)` (the vault root listing only — no recursion). -/
def tagsLoop (yaml : Str → YamlResult) (fs : FS) (vaultPath : Str) :
    List Str → List (Str × Nat) → Except IOErr (List (Str × Nat))
  | [], counts => .ok counts
  | name :: rest, counts =>
    if strEndsWith name mdExt then
      match getNoteByPath yaml fs vaultPath (stripMd name) with
      | .error e => .error e
      | .ok none => tagsLoop yaml fs vaultPath rest counts
      | .ok (some note) =>
        match note.metadata.tags with
        | none => tagsLoop yaml fs vaultPath rest counts
        | some ts => tagsLoop yaml fs vaultPath rest (ts.foldl bumpTag counts)
    else tagsLoop yaml fs vaultPath rest counts

/-- `VaultClient.getAllTags`. -/
def getAllTags (yaml : Str → YamlResult) (vaultPath : Str)
    (vault : List VEntry) : Except IOErr (List (Str × Nat)) :=
  (tagsLoop yaml (fsOfVault vaultPath vault) vaultPath
      (vault.map entryName) []).map sortCountDesc

/-! ## `ObsidianServer` (`src/index.ts`) -/

def invalidParamsCode : Int := -32602

def methodNotFoundCode : Int := -32601

def internalErrorCode : Int := -32603

/-- The SDK `McpError`: its `Error.message` is the decorated
`MCP error ${code}: ${message}` string. -/
structure McpError where
  code : Int
  message : Str
deriving DecidableEq

def mkMcpError (code : Int) (msg : Str) : McpError :=
  { code
    message := "MCP error ".data ++ (toString code).data ++ ": ".data ++ msg }

/-- A value thrown inside `handleToolCall`: either an `McpError` or another
JavaScript `Error` carrying a message (I/O errors, `TypeError`s). -/
inductive JsError where
  | mcp (e : McpError)
  | js (message : Str)
deriving DecidableEq

/-- `error instanceof Error ? error.message : ...` (every error this model
throws is an `Error`). -/
def JsError.msg : JsError → Str
  | .mcp e => e.message
  | .js m => m

/-- The `arguments` object of a tool-call request; `none` fields are absent
keys (`key in args` is the presence test of `validateArgs`). -/
structure ToolArgs where
  query : Option Str := none
  includeTags : Option Bool := none
  includePath : Option Bool := none
  excludeFolders : Option (List Str) := none
  limit : Option Int := none
  path : Option Str := none
  minCount : Option Int := none
deriving DecidableEq

/-- A successful tool-call payload (the JSON-serialised text content block is
abstracted to the serialised value). -/
inductive ToolResponse where
  | search (rs : List SearchResult)
  | note (n : Note)
  | tags (ts : List (Str × Nat))
deriving DecidableEq

def typeErrorMsg : Str := "Cannot read properties of undefined".data

def destructureErrorMsg : Str := "Cannot destructure property minCount of args as it is undefined".data

def searchErrToJs : SearchErr → JsError
  | .io e => .js e.message
  | .typeError => .js typeErrorMsg

/-- The `try` body of `ObsidianServer.handleToolCall`: per-tool argument
validation (`validateArgs` throws `McpError(InvalidParams, ...)`), execution
against the vault, and the `McpError(MethodNotFound, ...)` default. -/
def handleToolCallInner (yaml : Str → YamlResult) (fuel : Nat)
    (vaultPath : Str) (vault : List VEntry) (name : Str)
    (args : Option ToolArgs) : Except JsError ToolResponse :=
  if name = "search_notes".data then
    match args with
    | none =>
      .error (.mcp (mkMcpError invalidParamsCode "Arguments must be an object".data))
    | some a =>
      match a.query with
      | none =>
        .error (.mcp (mkMcpError invalidParamsCode "Missing required argument: query".data))
      | some q =>
        match searchNotes yaml fuel vaultPath vault q
            { includeTags := a.includeTags
              includePath := a.includePath
              excludeFolders := a.excludeFolders
              limit := a.limit } with
        | .ok rs => .ok (.search rs)
        | .error se => .error (searchErrToJs se)
  else if name = "get_note".data then
    match args with
    | none =>
      .error (.mcp (mkMcpError invalidParamsCode "Arguments must be an object".data))
    | some a =>
      match a.path with
      | none =>
        .error (.mcp (mkMcpError invalidParamsCode "Missing required argument: path".data))
      | some p =>
        match getNoteByPath yaml (fsOfVault vaultPath vault) vaultPath p with
        | .error e => .error (.js e.message)
        | .ok none =>
          .error (.mcp (mkMcpError invalidParamsCode ("Note not found: ".data ++ p)))
        | .ok (some n) => .ok (.note n)
  else if name = "list_tags".data then
    match getAllTags yaml vaultPath vault with
    | .error e => .error (.js e.message)
    | .ok tags =>
      match args with
      | none => .error (.js destructureErrorMsg)
      | some a =>
        let minCount := a.minCount.getD 0
        .ok (.tags (tags.filter (fun t => decide (minCount ≤ (t.2 : Int)))))
  else
    .error (.mcp (mkMcpError methodNotFoundCode ("Unknown tool: ".data ++ name)))

/-- `ObsidianServer.handleToolCall`: the `try` body with its catch-all, which
re-wraps every thrown error — the `InvalidParams` and `MethodNotFound`
`McpError`s included — into `McpError(InternalError, error.message)`. -/
def handleToolCall (yaml : Str → YamlResult) (fuel : Nat) (vaultPath : Str)
    (vault : List VEntry) (name : Str) (args : Option ToolArgs) :
    Except McpError ToolResponse :=
  match handleToolCallInner yaml fuel vaultPath vault name args with
  | .ok r => .ok r
  | .error e => .error (mkMcpError internalErrorCode e.msg)

/-! ## Concrete test fixtures

The §8 scenario of the specification: `note1.md` at the vault top level with
front-matter tags `[test, example, documentation]`, and `subfolder/note3.md`
with tags `[test, archived]`.  `scenYaml` models `js-yaml` on exactly these two
front-matter blocks. -/

def vaultRoot : Str := "/vault".data

def fmNote1 : Str :=
  "title: Test Note 1\ntags:\n  - test\n  - example\n  - documentation".data

def fmNote3 : Str := "title: Test Note 3\ntags:\n  - test\n  - archived".data

def metaNote1 : NoteMetadata :=
  { title := some "Test Note 1".data
    tags := some ["test".data, "example".data, "documentation".data] }

def metaNote3 : NoteMetadata :=
  { title := some "Test Note 3".data
    tags := some ["test".data, "archived".data] }

def scenYaml (fm : Str) : YamlResult :=
  if fm = fmNote1 then .ok metaNote1
  else if fm = fmNote3 then .ok metaNote3
  else .error

def note1Body : Str := "This is a test note with [[note2]] and [[note3]].".data

def note1Content : Str := fmOpen ++ fmNote1 ++ fmClose ++ note1Body

def note3Body : Str := "This is a test note too.".data

def note3Content : Str := fmOpen ++ fmNote3 ++ fmClose ++ note3Body

def scenVault : List VEntry :=
  [ .file "note1.md".data note1Content "c1".data "m1".data,
    .dir "subfolder".data
      [ .file "note3.md".data note3Content "c3".data "m3".data ] ]

/-- A document whose front matter parses successfully but carries no `title`
key (`js-yaml` on `tags: [test]` returns an object without `title`). -/
def noTitleYaml (fm : Str) : YamlResult :=
  if fm = "tags: [test]".data then .ok { tags := some ["test".data] } else .error

def noTitleVault : List VEntry :=
  [ .file "x.md".data "---\ntags: [test]\n---\nBody".data "c".data "m".data ]

/-- The `title` field of the note loaded for `x` from `noTitleVault`, when the
load succeeds (`none` in the outer `Option` would mean the load failed). -/
def c1LoadedTitle : Option (Option Str) :=
  match getNoteByPath noTitleYaml (fsOfVault vaultRoot noTitleVault) vaultRoot
      "x".data with
  | .ok (some n) => some n.metadata.title
  | _ => none

def dummyNote : Note :=
  { path := [], name := [], content := [], metadata := {}, linksTo := []
    linksFrom := [] }

def c5opts : SearchOptions :=
  { includeTags := some true, includePath := some true, limit := some 1 }

def c5res : SearchResult := { note := dummyNote, matchType := .tag, score := 2 }

def tinyYaml : Str → YamlResult := fun _ => .error

def tinyVault : List VEntry :=
  [ .file "a.md".data "hello".data "tc".data "tm".data ]

def tinyNote : Note :=
  { path := "a.md".data, name := "a".data, content := "hello".data
    metadata := { title := some "a".data, created := some "tc".data
                  modified := some "tm".data }
    linksTo := [], linksFrom := [] }

def tinyRes : SearchResult :=
  { note := tinyNote, excerpt := some "...hello...".data
    matchType := .content, score := 1 }

def c9opts : SearchOptions := { excludeFolders := some ["subfolder".data] }

def note1Note : Note :=
  { path := "note1.md".data, name := "note1".data, content := note1Body
    metadata :=
      { metaNote1 with created := some "c1".data, modified := some "m1".data }
    linksTo := ["note2".data, "note3".data], linksFrom := [] }

def c9res : SearchResult :=
  { note := note1Note, excerpt := some ("...".data ++ note1Body ++ "...".data)
    matchType := .content, score := 1 }

/-! ## Helper instances and lemmas -/

deriving instance DecidableEq for Except

theorem strEndsWith_iff {s t : Str} :
    strEndsWith s t = true ↔ ∃ pre, s = pre ++ t := by
  unfold strEndsWith
  rw [Bool.and_eq_true, decide_eq_true_iff, decide_eq_true_iff]
  constructor
  · rintro ⟨hlen, hdrop⟩
    refine ⟨s.take (s.length - t.length), ?_⟩
    conv_lhs => rw [← List.take_append_drop (s.length - t.length) s]
    rw [hdrop]
  · rintro ⟨pre, rfl⟩
    refine ⟨by simp, ?_⟩
    have h : pre.length + t.length - t.length = pre.length := by omega
    rw [List.length_append, h, List.drop_left]

theorem strStartsWith_iff {s t : Str} :
    strStartsWith s t = true ↔ ∃ rest, s = t ++ rest := by
  unfold strStartsWith
  rw [decide_eq_true_iff]
  constructor
  · intro h
    refine ⟨s.drop t.length, ?_⟩
    conv_lhs => rw [← List.take_append_drop t.length s]
    rw [h]
  · rintro ⟨rest, rfl⟩
    rw [List.take_left]

theorem strEndsWith_append_left {y t : Str} (x : Str)
    (h : strEndsWith y t = true) : strEndsWith (x ++ y) t = true := by
  rcases strEndsWith_iff.mp h with ⟨pre, rfl⟩
  exact strEndsWith_iff.mpr ⟨x ++ pre, by rw [List.append_assoc]⟩

theorem firstIdx_isSome_prepend {n h : Str} (a : Str)
    (hs : (firstIdx n h).isSome = true) : (firstIdx n (a ++ h)).isSome = true := by
  induction a with
  | nil => simpa using hs
  | cons c a ih =>
    show (firstIdx n (c :: (a ++ h))).isSome = true
    rw [firstIdx]
    split
    · rfl
    · simpa using ih

theorem strIncludes_prepend {h n : Str} (a : Str)
    (hs : strIncludes h n = true) : strIncludes (a ++ h) n = true :=
  firstIdx_isSome_prepend a hs

theorem relativePath_append (v x : Str) :
    relativePath v (v ++ slashStr ++ x) = x := by
  unfold relativePath
  have hpre : strStartsWith (v ++ slashStr ++ x) (v ++ slashStr) = true := by
    refine strStartsWith_iff.mpr ⟨x, ?_⟩
    simp [List.append_assoc]
  rw [if_pos hpre]
  have hlen : v.length + 1 = (v ++ slashStr).length := by
    simp [slashStr]
  rw [hlen]
  have : v ++ slashStr ++ x = (v ++ slashStr) ++ x := by
    simp [List.append_assoc]
  rw [this, List.drop_left]

theorem stripMd_of_endsWith {s : Str} (h : strEndsWith s mdExt = true) :
    stripMd s ++ mdExt = s := by
  rcases strEndsWith_iff.mp h with ⟨pre, rfl⟩
  unfold stripMd
  rw [if_pos (strEndsWith_iff.mpr ⟨pre, rfl⟩)]
  have hlen : pre.length + mdExt.length - 3 = pre.length := by
    simp [mdExt]
  rw [List.length_append, hlen, List.take_left]

theorem walkAux_mem {excl : List Str} :
    ∀ {fuel : Nat} {dir : Str} {entries : List VEntry} {p : Str},
      p ∈ walkAux excl fuel dir entries →
      excludedPath excl p = false ∧
        ∃ X, p = dir ++ slashStr ++ X ∧ strEndsWith X mdExt = true := by
  intro fuel
  induction fuel with
  | zero => intro dir entries p hp; simp [walkAux] at hp
  | succ fuel ih =>
    intro dir entries p hp
    match entries with
    | [] => simp [walkAux] at hp
    | .file name c t m :: rest =>
      have hstep : walkAux excl (fuel + 1) dir (.file name c t m :: rest) =
          (if excludedPath excl (dir ++ slashStr ++ name) then []
           else if strEndsWith name mdExt then [dir ++ slashStr ++ name] else []) ++
          walkAux excl fuel dir rest := rfl
      rw [hstep, List.mem_append] at hp
      rcases hp with hp | hp
      · by_cases hex : excludedPath excl (dir ++ slashStr ++ name) = true
        · rw [if_pos hex] at hp; simp at hp
        · rw [if_neg hex] at hp
          by_cases hmd : strEndsWith name mdExt = true
          · rw [if_pos hmd] at hp
            rcases List.mem_singleton.mp hp with rfl
            exact ⟨Bool.eq_false_iff.mpr hex, name, rfl, hmd⟩
          · rw [if_neg hmd] at hp; simp at hp
      · exact ih hp
    | .dir name sub :: rest =>
      have hstep : walkAux excl (fuel + 1) dir (.dir name sub :: rest) =
          (if excludedPath excl (dir ++ slashStr ++ name) then []
           else walkAux excl fuel (dir ++ slashStr ++ name) sub) ++
          walkAux excl fuel dir rest := rfl
      rw [hstep, List.mem_append] at hp
      rcases hp with hp | hp
      · by_cases hex : excludedPath excl (dir ++ slashStr ++ name) = true
        · rw [if_pos hex] at hp; simp at hp
        · rw [if_neg hex] at hp
          rcases ih hp with ⟨hnotex, X, rfl, hX⟩
          refine ⟨hnotex, name ++ slashStr ++ X, by simp [List.append_assoc], ?_⟩
          rw [show name ++ slashStr ++ X = (name ++ slashStr) ++ X by
            simp [List.append_assoc]]
          exact strEndsWith_append_left _ hX
      · exact ih hp

theorem mem_contentResult {query : Str} {note : Note} {r : SearchResult}
    (h : r ∈ contentResult query note) :
    r.note = note ∧ r.matchType = .content ∧ r.score = 1 ∧
      ∃ i, firstIdx (toLowerStr query) (toLowerStr note.content) = some i ∧
        r.excerpt = some ("...".data ++
          strSlice note.content (i - 40)
            (min note.content.length (i + query.length + 40)) ++ "...".data) := by
  unfold contentResult at h
  split at h
  · next i heq =>
    rcases List.mem_singleton.mp h with rfl
    exact ⟨rfl, rfl, rfl, i, heq, rfl⟩
  · simp at h

theorem mem_tagResult {query : Str} {opts : SearchOptions} {note : Note}
    {r : SearchResult} (h : r ∈ tagResult query opts note) :
    r = { note, matchType := .tag, score := 2 } := by
  unfold tagResult at h
  split at h
  · exact List.mem_singleton.mp h
  · simp at h

theorem evalNote_ok_shape {query : Str} {opts : SearchOptions} {note : Note}
    {out : List SearchResult} (h : evalNote query opts note = .ok out) :
    out = contentResult query note ++ tagResult query opts note ∨
      out = contentResult query note ++ tagResult query opts note ++
        [titleResult note] := by
  unfold evalNote at h
  split at h
  · split at h
    · exact Or.inr (Except.ok.inj h).symm
    · split at h
      · exact absurd h (by simp)
      · split at h
        · exact Or.inr (Except.ok.inj h).symm
        · exact Or.inl (Except.ok.inj h).symm
  · exact Or.inl (Except.ok.inj h).symm

theorem evalNote_mem {query : Str} {opts : SearchOptions} {note : Note}
    {out : List SearchResult} {r : SearchResult}
    (h : evalNote query opts note = .ok out) (hr : r ∈ out) :
    r.note = note ∧
      ((r.matchType = .content ∧ r.score = 1 ∧
          ∃ i, firstIdx (toLowerStr query) (toLowerStr note.content) = some i ∧
            r.excerpt = some ("...".data ++
              strSlice note.content (i - 40)
                (min note.content.length (i + query.length + 40)) ++ "...".data)) ∨
        (r.matchType = .tag ∧ r.score = 2 ∧ r.excerpt = none) ∨
        (r.matchType = .title ∧ r.score = 3 ∧ r.excerpt = none)) := by
  have hsplit :
      r ∈ contentResult query note ∨ r ∈ tagResult query opts note ∨
        r = titleResult note := by
    rcases evalNote_ok_shape h with hout | hout
    · rw [hout, List.mem_append] at hr
      rcases hr with hr | hr
      · exact Or.inl hr
      · exact Or.inr (Or.inl hr)
    · rw [hout, List.append_assoc, List.mem_append] at hr
      rcases hr with hr | hr
      · exact Or.inl hr
      · rw [List.mem_append] at hr
        rcases hr with hr | hr
        · exact Or.inr (Or.inl hr)
        · exact Or.inr (Or.inr (List.mem_singleton.mp hr))
  rcases hsplit with hc | ht | httl
  · rcases mem_contentResult hc with ⟨hnote, hmt, hsc, hex⟩
    exact ⟨hnote, Or.inl ⟨hmt, hsc, hex⟩⟩
  · rw [mem_tagResult ht]
    exact ⟨rfl, Or.inr (Or.inl ⟨rfl, rfl, rfl⟩)⟩
  · rw [httl]
    exact ⟨rfl, Or.inr (Or.inr ⟨rfl, rfl, rfl⟩)⟩

theorem evalNote_length {query : Str} {opts : SearchOptions} {note : Note}
    {out : List SearchResult} (h : evalNote query opts note = .ok out) :
    out.length ≤ 3 := by
  have hc : (contentResult query note).length ≤ 1 := by
    unfold contentResult; split <;> simp
  have ht : (tagResult query opts note).length ≤ 1 := by
    unfold tagResult; split <;> simp
  rcases evalNote_ok_shape h with hout | hout <;> rw [hout] <;>
    simp only [List.length_append, List.length_singleton] <;> omega

theorem getNoteByPath_ok_eq {yaml : Str → YamlResult} {fs : FS}
    {vaultPath notePath raw ct mt : Str}
    (h : fs (vaultPath ++ slashStr ++ notePath ++ mdExt) = .ok (raw, ct, mt)) :
    getNoteByPath yaml fs vaultPath notePath = .ok (some
      { path := relativePath vaultPath (vaultPath ++ slashStr ++ notePath ++ mdExt)
        name := lastComponent notePath
        content := (readMarkdownFile yaml
          (vaultPath ++ slashStr ++ notePath ++ mdExt) raw).1
        metadata := { (readMarkdownFile yaml
            (vaultPath ++ slashStr ++ notePath ++ mdExt) raw).2 with
          created := some ct, modified := some mt }
        linksTo := parseInternalLinks (readMarkdownFile yaml
          (vaultPath ++ slashStr ++ notePath ++ mdExt) raw).1
        linksFrom := [] }) := by
  simp only [getNoteByPath, h]

theorem getNoteByPath_path {yaml : Str → YamlResult} {fs : FS}
    {vaultPath notePath : Str} {n : Note}
    (h : getNoteByPath yaml fs vaultPath notePath = .ok (some n)) :
    n.path = relativePath vaultPath (vaultPath ++ slashStr ++ notePath ++ mdExt) := by
  simp only [getNoteByPath] at h
  split at h
  · next e heq =>
    split at h
    · exact absurd h (by simp)
    · exact absurd h (by simp)
  · next raw ct mt heq =>
    rcases Option.some.inj (Except.ok.inj h) with rfl
    rfl

theorem searchLoop_stop {yaml : Str → YamlResult} {fs : FS}
    {vaultPath query : Str} {opts : SearchOptions} {l : Int}
    (hl : opts.limit = some l) (hne : l ≠ 0)
    (docs seen : List Str) (acc : List SearchResult)
    (hge : l ≤ (acc.length : Int)) :
    searchLoop yaml fs vaultPath query opts docs seen acc = .ok acc := by
  have hbc : breakCond opts.limit acc.length = true := by
    rw [hl]
    show (if l = 0 then false else decide (l ≤ (acc.length : Int))) = true
    rw [if_neg hne]
    exact decide_eq_true hge
  cases docs with
  | nil => rfl
  | cons p rest =>
    rw [searchLoop, if_pos hbc]

theorem searchLoop_mem {yaml : Str → YamlResult} {fs : FS}
    {vaultPath query : Str} {opts : SearchOptions} :
    ∀ {docs seen : List Str} {acc rs : List SearchResult} {r : SearchResult},
      searchLoop yaml fs vaultPath query opts docs seen acc = .ok rs →
      r ∈ rs →
      r ∈ acc ∨
        ∃ p note out, p ∈ docs ∧
          getNoteByPath yaml fs vaultPath
            (stripMd (relativePath vaultPath p)) = .ok (some note) ∧
          evalNote query opts note = .ok out ∧ r ∈ out := by
  intro docs
  induction docs with
  | nil =>
    intro seen acc rs r h hr
    rw [searchLoop] at h
    rcases Except.ok.inj h with rfl
    exact Or.inl hr
  | cons p rest ih =>
    intro seen acc rs r h hr
    rw [searchLoop] at h
    split at h
    · rcases Except.ok.inj h with rfl
      exact Or.inl hr
    · split at h
      · rcases ih h hr with hacc | ⟨p2, note, out, hp2, hload, heval, hout⟩
        · exact Or.inl hacc
        · exact Or.inr ⟨p2, note, out, List.mem_cons_of_mem _ hp2, hload, heval, hout⟩
      · split at h
        · next e heq => exact absurd h (by simp)
        · next heq =>
          rcases ih h hr with hacc | ⟨p2, note, out, hp2, hload, heval, hout⟩
          · exact Or.inl hacc
          · exact Or.inr ⟨p2, note, out, List.mem_cons_of_mem _ hp2, hload, heval, hout⟩
        · next note heq =>
          split at h
          · exact absurd h (by simp)
          · next add heval =>
            rcases ih h hr with hacc | ⟨p2, note2, out, hp2, hload, heval2, hout⟩
            · rw [List.mem_append] at hacc
              rcases hacc with hacc | hadd
              · exact Or.inl hacc
              · exact Or.inr ⟨p, note, add, List.mem_cons_self _ _, heq, heval, hadd⟩
            · exact Or.inr ⟨p2, note2, out, List.mem_cons_of_mem _ hp2, hload, heval2, hout⟩

theorem searchLoop_length {yaml : Str → YamlResult} {fs : FS}
    {vaultPath query : Str} {opts : SearchOptions} {l : Int}
    (hl : opts.limit = some l) (hpos : 0 < l) :
    ∀ {docs seen : List Str} {acc rs : List SearchResult},
      searchLoop yaml fs vaultPath query opts docs seen acc = .ok rs →
      (acc.length : Int) < l → (rs.length : Int) ≤ l + 2 := by
  intro docs
  induction docs with
  | nil =>
    intro seen acc rs h hlt
    rw [searchLoop] at h
    rcases Except.ok.inj h with rfl
    omega
  | cons p rest ih =>
    intro seen acc rs h hlt
    rw [searchLoop] at h
    split at h
    · rcases Except.ok.inj h with rfl
      omega
    · split at h
      · exact ih h hlt
      · split at h
        · next e heq => exact absurd h (by simp)
        · exact ih h hlt
        · next note heq =>
          split at h
          · exact absurd h (by simp)
          · next add heval =>
            have hadd : add.length ≤ 3 := evalNote_length heval
            by_cases hnext : ((acc ++ add).length : Int) < l
            · exact ih h hnext
            · push_neg at hnext
              rw [searchLoop_stop hl (by omega) rest (relativePath vaultPath p :: seen)
                (acc ++ add) hnext] at h
              rcases Except.ok.inj h with rfl
              rw [List.length_append]
              push_cast
              omega

theorem mem_insertScore {x r : SearchResult} :
    ∀ {l : List SearchResult}, r ∈ insertScore x l ↔ r = x ∨ r ∈ l := by
  intro l
  induction l with
  | nil => simp [insertScore]
  | cons y ys ih =>
    rw [insertScore]
    split
    · simp
    · rw [List.mem_cons, ih, List.mem_cons]
      tauto

theorem length_insertScore {x : SearchResult} :
    ∀ {l : List SearchResult}, (insertScore x l).length = l.length + 1 := by
  intro l
  induction l with
  | nil => rfl
  | cons y ys ih =>
    rw [insertScore]
    split
    · rfl
    · rw [List.length_cons, ih, List.length_cons]

theorem length_sortScoreDesc {l : List SearchResult} :
    (sortScoreDesc l).length = l.length := by
  induction l with
  | nil => rfl
  | cons x xs ih =>
    show (insertScore x (sortScoreDesc xs)).length = xs.length + 1
    rw [length_insertScore, ih]

theorem mem_sortScoreDesc {r : SearchResult} :
    ∀ {l : List SearchResult}, r ∈ sortScoreDesc l ↔ r ∈ l := by
  intro l
  induction l with
  | nil => simp [sortScoreDesc]
  | cons x xs ih =>
    show r ∈ insertScore x (sortScoreDesc xs) ↔ _
    rw [mem_insertScore, ih, List.mem_cons]

theorem sorted_insertScore {x : SearchResult} {l : List SearchResult}
    (hl : l.Sorted (fun a b => b.score ≤ a.score)) :
    (insertScore x l).Sorted (fun a b => b.score ≤ a.score) := by
  induction l with
  | nil => simp [insertScore]
  | cons y ys ih =>
    rw [insertScore]
    rw [List.sorted_cons] at hl
    split
    · next hle =>
      rw [List.sorted_cons]
      refine ⟨?_, List.sorted_cons.mpr hl⟩
      intro b hb
      rcases List.mem_cons.mp hb with rfl | hb
      · exact hle
      · exact le_trans (hl.1 b hb) hle
    · next hgt =>
      push_neg at hgt
      rw [List.sorted_cons]
      refine ⟨?_, ih hl.2⟩
      intro b hb
      rcases mem_insertScore.mp hb with rfl | hb
      · exact le_of_lt hgt
      · exact hl.1 b hb

theorem sorted_sortScoreDesc {l : List SearchResult} :
    (sortScoreDesc l).Sorted (fun a b => b.score ≤ a.score) := by
  induction l with
  | nil => simp [sortScoreDesc]
  | cons x xs ih => exact sorted_insertScore ih

theorem filter_insertScore {x : SearchResult} {s : Nat} :
    ∀ {l : List SearchResult},
      (insertScore x l).filter (fun r => r.score == s) =
        (x :: l).filter (fun r => r.score == s) := by
  intro l
  induction l with
  | nil => rfl
  | cons y ys ih =>
    rw [insertScore]
    split
    · rfl
    · next hgt =>
      push_neg at hgt
      by_cases hx : x.score = s
      · have hy : (y.score == s) = false := by
          simp only [beq_eq_false_iff_ne]
          omega
        simp [List.filter_cons, hy, ih]
      · have hxf : (x.score == s) = false := by
          simp only [beq_eq_false_iff_ne]
          exact hx
        simp [List.filter_cons, hxf, ih]

theorem filter_sortScoreDesc {s : Nat} :
    ∀ {l : List SearchResult},
      (sortScoreDesc l).filter (fun r => r.score == s) =
        l.filter (fun r => r.score == s) := by
  intro l
  induction l with
  | nil => rfl
  | cons x xs ih =>
    show (insertScore x (sortScoreDesc xs)).filter _ = _
    rw [filter_insertScore, List.filter_cons, List.filter_cons]
    cases x.score == s <;> simp [ih]

theorem nodup_addUnique {acc : List Str} {x : Str} (h : acc.Nodup) :
    (addUnique acc x).Nodup := by
  unfold addUnique
  split
  · exact h
  · next hx =>
    rw [List.nodup_append]
    refine ⟨h, List.nodup_singleton x, ?_⟩
    intro a ha hax
    rcases List.mem_singleton.mp hax with rfl
    exact hx ha

theorem nodup_foldl_addUnique :
    ∀ (l : List Str) (acc : List Str), acc.Nodup → (l.foldl addUnique acc).Nodup := by
  intro l
  induction l with
  | nil => intro acc h; exact h
  | cons x xs ih => intro acc h; exact ih _ (nodup_addUnique h)

theorem searchNotes_inv {yaml : Str → YamlResult} {fuel : Nat}
    {vaultPath : Str} {vault : List VEntry} {query : Str}
    {opts : SearchOptions} {rs : List SearchResult}
    (h : searchNotes yaml fuel vaultPath vault query opts = .ok rs) :
    ∃ raw, searchNotesRaw yaml fuel vaultPath vault query opts = .ok raw ∧
      rs = sortScoreDesc raw := by
  unfold searchNotes at h
  cases hraw : searchNotesRaw yaml fuel vaultPath vault query opts with
  | error e => rw [hraw] at h; exact absurd h (by simp [Except.map])
  | ok raw =>
    rw [hraw] at h
    refine ⟨raw, rfl, ?_⟩
    have : Except.ok (ε := SearchErr) (sortScoreDesc raw) = .ok rs := h
    exact (Except.ok.inj this).symm

theorem evalNote_limit_irrel {query : Str} {o : SearchOptions} {x : Option Int}
    {note : Note} :
    evalNote query { o with limit := x } note = evalNote query o note := rfl

theorem searchLoop_limit_zero {yaml : Str → YamlResult} {fs : FS}
    {vaultPath query : Str} {o : SearchOptions} :
    ∀ (docs seen : List Str) (acc : List SearchResult),
      searchLoop yaml fs vaultPath query { o with limit := some 0 } docs seen acc =
        searchLoop yaml fs vaultPath query { o with limit := none } docs seen acc := by
  intro docs
  induction docs with
  | nil => intro seen acc; rfl
  | cons p rest ih =>
    intro seen acc
    rw [searchLoop, searchLoop]
    have h0 : breakCond ({ o with limit := some 0 } : SearchOptions).limit acc.length
        = false := rfl
    have hn : breakCond ({ o with limit := none } : SearchOptions).limit acc.length
        = false := rfl
    rw [h0, hn]
    simp only [Bool.false_eq_true, if_false]
    split
    · exact ih seen acc
    · cases hnote : getNoteByPath yaml fs vaultPath
          (stripMd (relativePath vaultPath p)) with
      | error e => rfl
      | ok onote =>
        cases onote with
        | none => exact ih seen acc
        | some note =>
          dsimp only
          rw [evalNote_limit_irrel (x := some 0), evalNote_limit_irrel (x := none)]
          cases evalNote query o note with
          | error e => rfl
          | ok add => exact ih _ _

/-! ## Claim theorems -/

/-- C1 (counterexample): the claim "for every successfully loaded document the
metadata `title` is a non-empty string" is false.  The document `x.md` with
front matter `tags: [test]` (which `js-yaml` parses successfully into an
object without a `title` key) loads successfully, and its `title` is absent:
`readMarkdownFile` returns early on a successful parse, skipping the
filename-stem default of line 34. -/
theorem c1_counterexample : c1LoadedTitle = some none := by decide

/-- C1 (amended): after a successful load, the `title` defaults to the
filename stem exactly when the document has no front-matter block or its
front matter fails to parse; when the front matter parses successfully the
metadata is the parser output verbatim, so `title` is whatever that object
carries — possibly absent or empty. -/
theorem c1_title_amended (yaml : Str → YamlResult) (fs : FS)
    (vaultPath notePath raw ct mt : Str) (n : Note)
    (hfs : fs (vaultPath ++ slashStr ++ notePath ++ mdExt) = .ok (raw, ct, mt))
    (hn : getNoteByPath yaml fs vaultPath notePath = .ok (some n)) :
    (frontmatterMatch raw = none →
      n.metadata.title =
        some (stripMd (lastComponent (vaultPath ++ slashStr ++ notePath ++ mdExt)))) ∧
    (∀ fm rest, frontmatterMatch raw = some (fm, rest) → yaml fm = .error →
      n.metadata.title =
        some (stripMd (lastComponent (vaultPath ++ slashStr ++ notePath ++ mdExt)))) ∧
    (∀ fm rest m, frontmatterMatch raw = some (fm, rest) → yaml fm = .ok m →
      n.metadata.title = m.title) := by
  rw [getNoteByPath_ok_eq hfs] at hn
  rcases Option.some.inj (Except.ok.inj hn) with rfl
  refine ⟨?_, ?_, ?_⟩
  · intro hfm
    show (readMarkdownFile yaml (vaultPath ++ slashStr ++ notePath ++ mdExt) raw).2.title = _
    rw [readMarkdownFile, hfm]
  · intro fm rest hfm hy
    show (readMarkdownFile yaml (vaultPath ++ slashStr ++ notePath ++ mdExt) raw).2.title = _
    simp only [readMarkdownFile, hfm, hy]
  · intro fm rest m hfm hy
    show (readMarkdownFile yaml (vaultPath ++ slashStr ++ notePath ++ mdExt) raw).2.title = _
    simp only [readMarkdownFile, hfm, hy]

/-- C1 (amended, witness): `sub.md` holds a front-matter block that fails to
parse; the loaded title is the filename stem `sub`. -/
theorem c1_title_amended_witness :
    (getNoteByPath (fun _ => .error) (fsOfVault vaultRoot noTitleVault) vaultRoot
        "x".data).map (Option.map (fun n => n.metadata.title)) =
      .ok (some (some (stripMd (lastComponent
        (vaultRoot ++ slashStr ++ "x".data ++ mdExt))))) := by
  have h := (c1_title_amended (fun _ => .error) (fsOfVault vaultRoot noTitleVault)
    vaultRoot "x".data "---\ntags: [test]\n---\nBody".data "c".data "m".data
    { path := "x.md".data
      name := "x".data
      content := "---\ntags: [test]\n---\nBody".data
      metadata := { title := some "x".data, created := some "c".data
                    modified := some "m".data }
      linksTo := []
      linksFrom := [] }
    (by decide) (by decide)).2.1 "tags: [test]".data "Body".data (by decide) rfl
  rw [show getNoteByPath (fun _ => .error) (fsOfVault vaultRoot noTitleVault)
      vaultRoot "x".data = .ok (some
        { path := "x.md".data
          name := "x".data
          content := "---\ntags: [test]\n---\nBody".data
          metadata := { title := some "x".data, created := some "c".data
                        modified := some "m".data }
          linksTo := []
          linksFrom := [] }) from by decide]
  rw [show (some "x".data : Option Str) =
      some (stripMd (lastComponent (vaultRoot ++ slashStr ++ "x".data ++ mdExt)))
    from h ▸ rfl]
  rfl

/-- C2 (code bug): for the §8 scenario vault, `getAllTags` reports `test ↦ 1`
and no `archived` entry at all, because the aggregation loop reads only
`fs.readdir(this.vaultPath)` — the vault root listing — and never descends
into `subfolder`.  The spec scenario (and the repository integration test,
which expects a `test` count spanning a subfolder note) requires `test ↦ 2`
and `archived ↦ 1`. -/
theorem c2_list_tags_top_level_only :
    getAllTags scenYaml vaultRoot scenVault =
      .ok [("test".data, 1), ("example".data, 1), ("documentation".data, 1)] := by
  decide

/-- C3 (counterexample): a `search_notes` call with no `query` argument does
not surface an "invalid parameters" error: the catch-all of `handleToolCall`
re-wraps the `McpError(InvalidParams, ...)` thrown by `validateArgs` into an
`McpError(InternalError, ...)` whose message merely embeds the
invalid-parameters text, and the two codes differ. -/
theorem c3_counterexample :
    handleToolCall scenYaml 5 vaultRoot scenVault "search_notes".data (some {}) =
      .error (mkMcpError internalErrorCode
        (mkMcpError invalidParamsCode "Missing required argument: query".data).message) ∧
    internalErrorCode ≠ invalidParamsCode := by
  exact ⟨by decide, by decide⟩

/-- C3 (amended): a missing required `query` aborts `search_notes` before any
storage access — the result is a fixed error independent of the vault — and an
unknown tool name is detected, but the catch-all wrapper re-wraps these
`McpError`s too: every error surfaced by `handleToolCall` carries the
`InternalError` code, with the underlying (invalid-parameters /
method-not-found / thrown) message embedded in its message. -/
theorem c3_error_wrapping_amended (yaml : Str → YamlResult) (fuel : Nat)
    (vaultPath : Str) (vault : List VEntry) :
    (∀ a : ToolArgs, a.query = none →
      handleToolCall yaml fuel vaultPath vault "search_notes".data (some a) =
        .error (mkMcpError internalErrorCode
          (mkMcpError invalidParamsCode
            "Missing required argument: query".data).message)) ∧
    (∀ (name : Str) (args : Option ToolArgs),
      name ≠ "search_notes".data → name ≠ "get_note".data →
      name ≠ "list_tags".data →
      handleToolCall yaml fuel vaultPath vault name args =
        .error (mkMcpError internalErrorCode
          (mkMcpError methodNotFoundCode ("Unknown tool: ".data ++ name)).message)) ∧
    (∀ (name : Str) (args : Option ToolArgs) (e : JsError),
      handleToolCallInner yaml fuel vaultPath vault name args = .error e →
      handleToolCall yaml fuel vaultPath vault name args =
        .error (mkMcpError internalErrorCode e.msg)) := by
  refine ⟨?_, ?_, ?_⟩
  · intro a hq
    have hinner : handleToolCallInner yaml fuel vaultPath vault
        "search_notes".data (some a) =
        .error (.mcp (mkMcpError invalidParamsCode
          "Missing required argument: query".data)) := by
      unfold handleToolCallInner
      rw [if_pos rfl]
      dsimp only
      rw [hq]
    unfold handleToolCall
    rw [hinner]
    rfl
  · intro name args h1 h2 h3
    have hinner : handleToolCallInner yaml fuel vaultPath vault name args =
        .error (.mcp (mkMcpError methodNotFoundCode
          ("Unknown tool: ".data ++ name))) := by
      unfold handleToolCallInner
      rw [if_neg h1, if_neg h2, if_neg h3]
    unfold handleToolCall
    rw [hinner]
    rfl
  · intro name args e h
    unfold handleToolCall
    rw [h]

/-- C3 (amended, witness): the missing-`query` error on an empty vault. -/
theorem c3_error_wrapping_amended_witness :
    handleToolCall scenYaml 7 vaultRoot [] "search_notes".data (some {}) =
      .error (mkMcpError internalErrorCode
        (mkMcpError invalidParamsCode
          "Missing required argument: query".data).message) :=
  (c3_error_wrapping_amended scenYaml 7 vaultRoot []).1 {} rfl

/-- C4 (confirmed): `getNoteByPath` returns `.ok none` exactly when the file
lookup fails with `ENOENT`; any other I/O failure propagates as the thrown
error; and a successful read always produces a note — no metadata content
(missing optional fields included) can make it throw. -/
theorem c4_get_note_not_found (yaml : Str → YamlResult) (fs : FS)
    (vaultPath notePath : Str) :
    (∀ e : IOErr, fs (vaultPath ++ slashStr ++ notePath ++ mdExt) = .error e →
      ((e.code = enoent → getNoteByPath yaml fs vaultPath notePath = .ok none) ∧
        (e.code ≠ enoent →
          getNoteByPath yaml fs vaultPath notePath = .error e))) ∧
    (∀ raw ct mt,
      fs (vaultPath ++ slashStr ++ notePath ++ mdExt) = .ok (raw, ct, mt) →
      ∃ n, getNoteByPath yaml fs vaultPath notePath = .ok (some n)) ∧
    (getNoteByPath yaml fs vaultPath notePath = .ok none →
      ∃ e, fs (vaultPath ++ slashStr ++ notePath ++ mdExt) = .error e ∧
        e.code = enoent) := by
  refine ⟨?_, ?_, ?_⟩
  · intro e he
    constructor
    · intro hc
      simp only [getNoteByPath, he, if_pos hc]
    · intro hc
      simp only [getNoteByPath, he, if_neg hc]
  · intro raw ct mt h
    exact ⟨_, getNoteByPath_ok_eq h⟩
  · intro h
    cases hfs : fs (vaultPath ++ slashStr ++ notePath ++ mdExt) with
    | error e =>
      by_cases hc : e.code = enoent
      · exact ⟨e, rfl, hc⟩
      · simp only [getNoteByPath, hfs, if_neg hc] at h
        exact absurd h (by simp)
    | ok v =>
      obtain ⟨raw, ct, mt⟩ := v
      rw [getNoteByPath_ok_eq hfs] at h
      exact absurd h (by simp)

/-- C4 (witness): a lookup in an empty vault fails with `ENOENT` and yields
`.ok none`. -/
theorem c4_get_note_not_found_witness :
    getNoteByPath scenYaml (fsOfVault vaultRoot []) vaultRoot "a".data =
      .ok none :=
  ((c4_get_note_not_found scenYaml (fsOfVault vaultRoot []) vaultRoot
    "a".data).1 ⟨enoent, enoent⟩ (by decide)).1 rfl

/-- C5 (confirmed): with a positive `limit`, once the accumulated result count
has reached the limit the loop visits no further document (it returns the
accumulator untouched), and since a single document contributes at most 3
results (one per match type), the final count is at most `limit + 2` — i.e.
the overshoot is bounded by the number of match types minus one. -/
theorem c5_limit_soft_cap (yaml : Str → YamlResult) (fuel : Nat)
    (vaultPath : Str) (vault : List VEntry) (query : Str)
    (opts : SearchOptions) (l : Int) (hl : opts.limit = some l)
    (hpos : 0 < l) :
    (∀ (docs seen : List Str) (acc : List SearchResult),
      l ≤ (acc.length : Int) →
      searchLoop yaml (fsOfVault vaultPath vault) vaultPath query opts
        docs seen acc = .ok acc) ∧
    (∀ rs, searchNotes yaml fuel vaultPath vault query opts = .ok rs →
      (rs.length : Int) ≤ l + 2) := by
  constructor
  · intro docs seen acc hge
    exact searchLoop_stop hl (by omega) docs seen acc hge
  · intro rs hrs
    obtain ⟨raw, hraw, rfl⟩ := searchNotes_inv hrs
    unfold searchNotesRaw at hraw
    have hb := searchLoop_length hl hpos hraw (by simpa using hpos)
    rw [length_sortScoreDesc]
    exact hb

/-- C5 (witness): with `limit = 1` and one result already accumulated, the
loop ignores the remaining document list. -/
theorem c5_limit_soft_cap_witness :
    searchLoop scenYaml (fsOfVault vaultRoot scenVault) vaultRoot "test".data
      c5opts ["q".data] [] [c5res] = .ok [c5res] :=
  (c5_limit_soft_cap scenYaml 9 vaultRoot scenVault "test".data c5opts 1 rfl
    (by decide)).1 ["q".data] [] [c5res] (by decide)

/-- C6 (confirmed): every content-match result carries score 1 and the excerpt
`'...' ++ content.slice(max(0, i − 40), min(len, i + |query| + 40)) ++ '...'`
computed at the first case-insensitive occurrence `i` of the query; tag and
title results carry no excerpt. -/
theorem c6_content_excerpt (yaml : Str → YamlResult) (fuel : Nat)
    (vaultPath : Str) (vault : List VEntry) (query : Str)
    (opts : SearchOptions) (rs : List SearchResult)
    (h : searchNotes yaml fuel vaultPath vault query opts = .ok rs) :
    ∀ r ∈ rs,
      (r.matchType = .content → r.score = 1 ∧
        ∃ i, firstIdx (toLowerStr query) (toLowerStr r.note.content) = some i ∧
          r.excerpt = some ("...".data ++ strSlice r.note.content (i - 40)
            (min r.note.content.length (i + query.length + 40)) ++ "...".data)) ∧
      (r.matchType ≠ .content → r.excerpt = none) := by
  intro r hr
  obtain ⟨raw, hraw, rfl⟩ := searchNotes_inv h
  rw [mem_sortScoreDesc] at hr
  unfold searchNotesRaw at hraw
  rcases searchLoop_mem hraw hr with habs | ⟨p, note, out, hp, hload, heval, hout⟩
  · exact absurd habs (List.not_mem_nil r)
  rcases evalNote_mem heval hout with ⟨hnote, hshape⟩
  rcases hshape with ⟨hmt, hsc, i, hidx, hex⟩ | ⟨hmt, hsc, hex⟩ | ⟨hmt, hsc, hex⟩
  · refine ⟨fun _ => ⟨hsc, i, ?_, ?_⟩, fun hne => absurd hmt hne⟩
    · rw [hnote]; exact hidx
    · rw [hnote]; exact hex
  · refine ⟨fun hc => ?_, fun _ => hex⟩
    rw [hmt] at hc
    cases hc
  · refine ⟨fun hc => ?_, fun _ => hex⟩
    rw [hmt] at hc
    cases hc

/-- C6 (witness): searching `ell` in a one-note vault whose note body is
`hello` yields the content result with excerpt `...hello...` and score 1. -/
theorem c6_content_excerpt_witness :
    tinyRes.score = 1 ∧ tinyRes.excerpt = some "...hello...".data := by
  have h := c6_content_excerpt tinyYaml 10 vaultRoot tinyVault "ell".data {}
    [tinyRes] (by decide) tinyRes (by decide)
  rcases h.1 rfl with ⟨hsc, i, hidx, hex⟩
  have hone : firstIdx (toLowerStr "ell".data) (toLowerStr tinyRes.note.content) =
      some 1 := by decide
  have hi : i = 1 := by
    rw [hone] at hidx
    exact (Option.some.inj hidx).symm
  subst hi
  refine ⟨hsc, ?_⟩
  rw [hex]
  decide

/-- C7 (confirmed): link extraction is deterministic (it is a pure function of
the body) and deduplicating: its output list never repeats a target;
`[[A|B]]` yields `A` (part before the pipe), `[Label](x/y.md)` yields `x/y`
(trailing `.md` stripped), and a target reachable through both syntaxes
appears once. -/
theorem c7_link_extraction :
    (∀ content : Str, (parseInternalLinks content).Nodup) ∧
    parseInternalLinks "[[A|B]]".data = ["A".data] ∧
    parseInternalLinks "[Label](x/y.md)".data = ["x/y".data] ∧
    parseInternalLinks "[[x/y]] and [Label](x/y.md)".data = ["x/y".data] := by
  exact ⟨fun content => nodup_foldl_addUnique _ [] List.nodup_nil,
    by decide, by decide, by decide⟩

/-- C8 (confirmed): `searchNotes` returns the stable descending-by-score sort
of the raw (evaluation-ordered) result list: the output is sorted with
non-increasing scores, and for each score value the subsequence of results
with that score is exactly the one of the evaluation order — ties keep their
relative emission order.  Determinism for fixed input and storage holds
definitionally (the embedding is a pure function). -/
theorem c8_sort_stable_desc (yaml : Str → YamlResult) (fuel : Nat)
    (vaultPath : Str) (vault : List VEntry) (query : Str)
    (opts : SearchOptions) (raw : List SearchResult)
    (h : searchNotesRaw yaml fuel vaultPath vault query opts = .ok raw) :
    searchNotes yaml fuel vaultPath vault query opts =
      .ok (sortScoreDesc raw) ∧
    (sortScoreDesc raw).Sorted (fun a b => b.score ≤ a.score) ∧
    ∀ s, (sortScoreDesc raw).filter (fun r => r.score == s) =
      raw.filter (fun r => r.score == s) := by
  refine ⟨?_, sorted_sortScoreDesc, fun s => filter_sortScoreDesc⟩
  unfold searchNotes
  rw [h]
  rfl

/-- C8 (witness): the one-note search sorts its single raw result. -/
theorem c8_sort_stable_desc_witness :
    searchNotes tinyYaml 10 vaultRoot tinyVault "ell".data {} =
      .ok (sortScoreDesc [tinyRes]) :=
  (c8_sort_stable_desc tinyYaml 10 vaultRoot tinyVault "ell".data {} [tinyRes]
    (by decide)).1

/-- C9 (confirmed): no returned result's note path contains any excluded
substring.  Every walked file path has already passed the substring check
(`path.includes(folder)`) on its own accumulated path — an excluded directory
is never descended into — and the note path of each result is a suffix of the
walked path, so it can contain no excluded substring either. -/
theorem c9_exclude_folders (yaml : Str → YamlResult) (fuel : Nat)
    (vaultPath : Str) (vault : List VEntry) (query : Str)
    (opts : SearchOptions) (rs : List SearchResult)
    (h : searchNotes yaml fuel vaultPath vault query opts = .ok rs) :
    ∀ r ∈ rs, ∀ f ∈ opts.excludeFolders.getD [],
      strIncludes r.note.path f = false := by
  intro r hr f hf
  obtain ⟨raw, hraw, rfl⟩ := searchNotes_inv h
  rw [mem_sortScoreDesc] at hr
  unfold searchNotesRaw at hraw
  rcases searchLoop_mem hraw hr with habs | ⟨p, note, out, hp, hload, heval, hout⟩
  · exact absurd habs (List.not_mem_nil r)
  have hnote := (evalNote_mem heval hout).1
  unfold walkFiles at hp
  rcases walkAux_mem hp with ⟨hnotex, X, rfl, hXmd⟩
  have hpath := getNoteByPath_path hload
  rw [relativePath_append vaultPath X] at hpath
  rw [show vaultPath ++ slashStr ++ stripMd X ++ mdExt =
      vaultPath ++ slashStr ++ (stripMd X ++ mdExt) from by
    simp [List.append_assoc]] at hpath
  rw [relativePath_append vaultPath (stripMd X ++ mdExt),
    stripMd_of_endsWith hXmd] at hpath
  rw [hnote, hpath]
  cases hb : strIncludes X f with
  | false => rfl
  | true =>
    have hfalse := List.any_eq_false.mp hnotex f hf
    exact absurd (strIncludes_prepend (vaultPath ++ slashStr) hb) hfalse

/-- C9 (witness): searching the scenario vault with `subfolder` excluded
returns only `note1.md`, whose path does not contain `subfolder`. -/
theorem c9_exclude_folders_witness :
    strIncludes c9res.note.path "subfolder".data = false :=
  c9_exclude_folders scenYaml 20 vaultRoot scenVault "test".data c9opts [c9res]
    (by decide) c9res (by decide) "subfolder".data (by decide)

/-- C10 (confirmed): a provided `limit` of `0` is falsy in
`options.limit || Infinity`, so it behaves exactly like an absent limit: the
search walks and evaluates every eligible document and returns the full
result set rather than an empty one. -/
theorem c10_limit_zero_unbounded (yaml : Str → YamlResult) (fuel : Nat)
    (vaultPath : Str) (vault : List VEntry) (query : Str) (o : SearchOptions) :
    searchNotes yaml fuel vaultPath vault query { o with limit := some 0 } =
      searchNotes yaml fuel vaultPath vault query { o with limit := none } := by
  unfold searchNotes searchNotesRaw
  rw [searchLoop_limit_zero]
